import Mathlib

/-!
Verification of the powergate staged-pin ledger (`ffs/coreipfs/internal/pinstore`)
and its garbage-collecting adapter (`ffs/coreipfs`).

The Go code is shallowly embedded: the pinstore `Store` becomes a record holding
the persisted datastore contents (`ds`) and the in-memory cache (`cache`), both
as association lists keyed by Cid; each Go method becomes a Lean function from
the pre-state to the post-state paired with an optional error (mirroring Go's
`error` return).  External effects are made explicit parameters:

* every `s.ds.Put` call takes a `putOk : Bool` telling whether the underlying
  datastore write succeeds in this call, and every `s.ds.Delete` a `delOk`;
* the IPFS node is modelled as the set (list) of node-pinned Cids, and each
  `ipfs.Pin().Rm` call consults an oracle `rmOk : Cid → Bool` for whether the
  node-level unpin succeeds.

Go slice aliasing is modelled faithfully: in `AddStaged`, `Add` and `Remove`
the local `r` shares its `Pins` backing array with the cached entry, so an
element write such as `r.Pins[i].CreatedAt = now` is visible through the cache
immediately, before `persist` runs; appends and length changes are not.
-/

/-- Content identifier: opaque, comparable (go-cid). -/
abbrev Cid := Nat

/-- Tenant identifier (ffs.APIID): opaque, comparable. -/
abbrev APIID := Nat

/-- One pin record of a Cid by an APIID (pinstore.Pin). -/
structure Pin where
  apiid : APIID
  staged : Bool
  createdAt : Int
deriving DecidableEq, Repr

/-- A ledger entry: a Cid together with its pin records (pinstore.PinnedCid). -/
structure PinnedCid where
  cid : Cid
  pins : List Pin
deriving DecidableEq, Repr

/-- Association list keyed by Cid, modelling both the Go map used as the
in-memory cache and the datastore key space under the `pins` prefix. -/
abbrev PinMap := List (Cid × PinnedCid)

/-- Map lookup (`s.cache[c]` read / datastore Get). -/
def lookupA : PinMap → Cid → Option PinnedCid
  | [], _ => none
  | kv :: rest, c => if kv.1 = c then some kv.2 else lookupA rest c

/-- Map write (`s.cache[c] = r` / datastore Put): replaces the binding if the
key is present, otherwise appends it. -/
def updA : PinMap → Cid → PinnedCid → PinMap
  | [], c, v => [(c, v)]
  | kv :: rest, c, v => if kv.1 = c then (c, v) :: rest else kv :: updA rest c v

/-- Map delete (`delete` on the Go map / datastore Delete). -/
def eraseA : PinMap → Cid → PinMap
  | [], _ => []
  | kv :: rest, c => if kv.1 = c then rest else kv :: eraseA rest c

/-- Index of the first pin record whose APIID matches, as scanned by the Go
loops `for i, p := range r.Pins { if p.APIID == iid { ... } }`. -/
def findPinIdx (iid : APIID) : List Pin → Option Nat
  | [] => none
  | p :: rest => if p.apiid = iid then some 0 else (findPinIdx iid rest).map (· + 1)

/-- The pinstore state: `ds` is the persisted datastore contents (decoded),
`cache` the in-memory map.  (pinstore.Store) -/
structure Store where
  ds : PinMap
  cache : PinMap
deriving DecidableEq, Repr

namespace Store

/-- Store.persist writes the entry to the datastore and, only if that Put
succeeded, mirrors it into the cache. -/
def persist (s : Store) (r : PinnedCid) (putOk : Bool) : Store × Option String :=
  if putOk then
    ({ ds := updA s.ds r.cid r, cache := updA s.cache r.cid r }, none)
  else
    (s, some "put in datastore")

/-- Store.AddStaged.  The branch structure follows the Go loop: the first pin
record whose APIID matches decides the case.  In the refresh branch the write
`r.Pins[i].CreatedAt = now` goes through the backing array shared with the
cached entry, so the cache is updated before `persist` is attempted. -/
def AddStaged (s : Store) (iid : APIID) (c : Cid) (now : Int) (putOk : Bool) :
    Store × Option String :=
  let r := (lookupA s.cache c).getD { cid := c, pins := [] }
  match findPinIdx iid r.pins with
  | some i =>
    let p := r.pins.getD i { apiid := iid, staged := true, createdAt := 0 }
    if p.staged = false then
      -- Durable pin found: keep the strong pin, mutate nothing.
      (s, none)
    else
      let r2 : PinnedCid := { r with pins := r.pins.set i { p with createdAt := now } }
      -- aliasing: the element write is already visible through the cache
      let s2 : Store := { s with cache := updA s.cache c r2 }
      persist s2 r2 putOk
  | none =>
    -- append does not write into the cached slice's visible range
    let r2 : PinnedCid := { r with pins := r.pins ++ [{ apiid := iid, staged := true, createdAt := now }] }
    persist s r2 putOk

/-- Store.Add: locate or create the record for the APIID and overwrite it as a
durable pin.  When the record exists, `*p = Pin{...}` writes through the shared
backing array, visible in the cache before `persist`. -/
def Add (s : Store) (iid : APIID) (c : Cid) (now : Int) (putOk : Bool) :
    Store × Option String :=
  let r := (lookupA s.cache c).getD { cid := c, pins := [] }
  match findPinIdx iid r.pins with
  | some i =>
    let r2 : PinnedCid := { r with pins := r.pins.set i { apiid := iid, staged := false, createdAt := now } }
    -- aliasing: the element write is already visible through the cache
    let s2 : Store := { s with cache := updA s.cache c r2 }
    persist s2 r2 putOk
  | none =>
    let r2 : PinnedCid := { r with pins := r.pins ++ [{ apiid := iid, staged := false, createdAt := now }] }
    persist s r2 putOk

/-- Store.RefCount: (total, staged) pin counts of a Cid; (0,0) if unknown. -/
def RefCount (s : Store) (c : Cid) : Nat × Nat :=
  match lookupA s.cache c with
  | none => (0, 0)
  | some r => (r.pins.length, (r.pins.filter (fun p => p.staged)).length)

/-- Store.IsPinnedBy: whether the APIID holds any record (staged or durable). -/
def IsPinnedBy (s : Store) (iid : APIID) (c : Cid) : Bool :=
  match lookupA s.cache c with
  | none => false
  | some r => r.pins.any (fun p => p.apiid == iid)

/-- Store.IsPinned: whether any cache entry exists for the Cid. -/
def IsPinned (s : Store) (c : Cid) : Bool :=
  (lookupA s.cache c).isSome

/-- Store.Remove: NotFound when no entry exists; silent no-op when the entry
holds no record for the APIID; otherwise swap-delete the record and persist.
The swap `r.Pins[c1idx] = r.Pins[len-1]` writes through the shared backing
array (the cache sees the overwritten slot at unchanged length); the truncation
`r.Pins[:len-1]` only changes the local slice header. -/
def Remove (s : Store) (iid : APIID) (c : Cid) (putOk : Bool) : Store × Option String :=
  match lookupA s.cache c with
  | none => (s, some "c1 isn't pinned")
  | some r =>
    match findPinIdx iid r.pins with
    | none => (s, none)
    | some i =>
      let last := r.pins.getLast?.getD { apiid := iid, staged := true, createdAt := 0 }
      let swapped := r.pins.set i last
      -- aliasing: the cache sees the swap at unchanged length
      let s2 : Store := { s with cache := updA s.cache c { r with pins := swapped } }
      persist s2 { r with pins := swapped.dropLast } putOk

/-- Store.RemoveStaged: errors if the entry is missing or holds any durable
pin; otherwise deletes the entry from the datastore and then re-assigns the
cached entry (`s.cache[c] = pc1`) instead of deleting it from the cache. -/
def RemoveStaged (s : Store) (c : Cid) (delOk : Bool) : Store × Option String :=
  match lookupA s.cache c with
  | none => (s, some "c1 isn't pinned")
  | some pc1 =>
    if pc1.pins.all (fun p => p.staged) then
      if delOk then
        ({ ds := eraseA s.ds c, cache := updA s.cache c pc1 }, none)
      else
        (s, some "deleting from datastore")
    else
      (s, some "all pins should be stage type")

/-- Store.GetAllOnlyStaged: every cached entry all of whose pins are staged. -/
def GetAllOnlyStaged (s : Store) : List PinnedCid :=
  ((s.cache.map Prod.snd).filter (fun v => v.pins.all (fun p => p.staged)))

/-- First pin record held by `iid` on `c`, as scanned by the Go loops. -/
def pinOf (s : Store) (c : Cid) (iid : APIID) : Option Pin :=
  (lookupA s.cache c).bind (fun r => r.pins.find? (fun p => p.apiid == iid))

end Store

/-- The adapter state (coreipfs.CoreIpfs): the external IPFS node's pin set
and the pinstore. -/
structure CoreIpfs where
  ipfs : List Cid
  ps : Store
deriving DecidableEq, Repr

namespace CoreIpfs

/-- CoreIpfs.getGCCandidates: filter the only-staged entries by the exclusion
list, then require every stage-pin to be at or before the cutoff. -/
def getGCCandidates (ci : CoreIpfs) (exclude : List Cid) (olderThan : Int) : List Cid :=
  ((Store.GetAllOnlyStaged ci.ps).filter
    (fun pc => !(exclude.contains pc.cid) &&
      pc.pins.all (fun sp => decide (sp.createdAt ≤ olderThan)))).map (fun pc => pc.cid)

/-- CoreIpfs.unpinStaged: re-check via RefCount that the entry has only
stage-pins, then do the node-level unpin (`ipfs.Pin().Rm`, whose success the
oracle `rmOk` decides), then `ps.RemoveStaged` (whose datastore Delete success
`delOk` decides). -/
def unpinStaged (ci : CoreIpfs) (rmOk delOk : Cid → Bool) (c : Cid) :
    CoreIpfs × Option String :=
  let (count, stagedCount) := Store.RefCount ci.ps c
  if count ≠ stagedCount then
    (ci, some "hasn't only stage-pins")
  else if rmOk c then
    let ci2 : CoreIpfs := { ci with ipfs := ci.ipfs.erase c }
    let (ps2, e) := Store.RemoveStaged ci2.ps c (delOk c)
    ({ ci2 with ps := ps2 }, e)
  else
    (ci, some "unpinning cid from ipfs node")

/-- The `for _, c := range unpinLst` loop body of CoreIpfs.GCStaged: stops at
the first failing unpinStaged and reports its error. -/
def gcLoop (ci : CoreIpfs) (rmOk delOk : Cid → Bool) : List Cid → CoreIpfs × Option String
  | [] => (ci, none)
  | c :: rest =>
    let (ci2, e) := unpinStaged ci rmOk delOk c
    match e with
    | some msg => (ci2, some msg)
    | none => gcLoop ci2 rmOk delOk rest

/-- CoreIpfs.GCStaged: compute the candidates, unpin each; on the first error
return the Go `nil` slice (modelled as `[]`) together with the error, else the
candidate list. -/
def GCStaged (ci : CoreIpfs) (rmOk delOk : Cid → Bool) (exclude : List Cid)
    (olderThan : Int) : CoreIpfs × List Cid × Option String :=
  let unpinLst := getGCCandidates ci exclude olderThan
  let (ci2, e) := gcLoop ci rmOk delOk unpinLst
  match e with
  | some msg => (ci2, [], some msg)
  | none => (ci2, unpinLst, none)

end CoreIpfs

/-! ### Association list lemmas -/

theorem mem_of_lookupA {l : PinMap} {c : Cid} {v : PinnedCid}
    (h : lookupA l c = some v) : (c, v) ∈ l := by
  induction l with
  | nil => simp [lookupA] at h
  | cons hd rest ih =>
    rcases hd with ⟨k, w⟩
    by_cases hh : k = c
    · simp only [lookupA, if_pos hh] at h
      cases h
      subst hh
      exact List.mem_cons_self _ _
    · simp only [lookupA] at h
      rw [if_neg hh] at h
      exact List.mem_cons_of_mem _ (ih h)

theorem lookupA_updA_self (l : PinMap) (c : Cid) (v : PinnedCid) :
    lookupA (updA l c v) c = some v := by
  induction l with
  | nil => simp [updA, lookupA]
  | cons kv rest ih =>
    by_cases h : kv.1 = c
    · simp [updA, h, lookupA]
    · simp [updA, h, lookupA, ih]

theorem lookupA_updA_ne (l : PinMap) (c x : Cid) (v : PinnedCid) (h : x ≠ c) :
    lookupA (updA l c v) x = lookupA l x := by
  induction l with
  | nil => simp [updA, lookupA, Ne.symm h]
  | cons kv rest ih =>
    by_cases hh : kv.1 = c
    · rw [updA, if_pos hh]
      rw [lookupA, if_neg (fun hx : c = x => h hx.symm)]
      rw [lookupA, if_neg (fun hx : kv.1 = x => h ((hh.symm.trans hx).symm))]
    · rw [updA, if_neg hh, lookupA, lookupA]
      by_cases hx : kv.1 = x
      · rw [if_pos hx, if_pos hx]
      · rw [if_neg hx, if_neg hx, ih]

theorem mem_updA {l : PinMap} {c : Cid} {v : PinnedCid} {kv : Cid × PinnedCid}
    (h : kv ∈ updA l c v) : kv = (c, v) ∨ kv ∈ l := by
  induction l with
  | nil => simpa [updA] using h
  | cons hd rest ih =>
    by_cases hh : hd.1 = c
    · rw [updA, if_pos hh] at h
      rcases List.mem_cons.1 h with h2 | h2
      · exact Or.inl h2
      · exact Or.inr (List.mem_cons_of_mem _ h2)
    · rw [updA, if_neg hh] at h
      rcases List.mem_cons.1 h with h2 | h2
      · exact Or.inr (by simp [h2])
      · rcases ih h2 with h3 | h3
        · exact Or.inl h3
        · exact Or.inr (List.mem_cons_of_mem _ h3)

theorem mem_keys_updA {l : PinMap} {c : Cid} {v : PinnedCid} {x : Cid}
    (h : x ∈ (updA l c v).map Prod.fst) : x = c ∨ x ∈ l.map Prod.fst := by
  rcases List.mem_map.1 h with ⟨kv, hm, hx⟩
  rcases mem_updA hm with h2 | h2
  · subst h2; exact Or.inl hx.symm
  · exact Or.inr (List.mem_map.2 ⟨kv, h2, hx⟩)

theorem keys_updA_nodup {l : PinMap} {c : Cid} {v : PinnedCid}
    (h : (l.map Prod.fst).Nodup) : ((updA l c v).map Prod.fst).Nodup := by
  induction l with
  | nil => simp [updA]
  | cons hd rest ih =>
    simp only [List.map_cons, List.nodup_cons] at h
    by_cases hh : hd.1 = c
    · rw [updA, if_pos hh]
      simp only [List.map_cons, List.nodup_cons]
      exact ⟨hh ▸ h.1, h.2⟩
    · rw [updA, if_neg hh]
      simp only [List.map_cons, List.nodup_cons]
      refine ⟨fun hmem => ?_, ih h.2⟩
      rcases mem_keys_updA hmem with h2 | h2
      · exact hh h2
      · exact h.1 h2

theorem eraseA_sublist (l : PinMap) (c : Cid) : (eraseA l c).Sublist l := by
  induction l with
  | nil => simp [eraseA]
  | cons hd rest ih =>
    by_cases hh : hd.1 = c
    · rw [eraseA, if_pos hh]
      exact List.sublist_cons_self hd rest
    · rw [eraseA, if_neg hh]
      exact ih.cons₂ hd

theorem lookupA_eraseA_self {l : PinMap} {c : Cid}
    (h : (l.map Prod.fst).Nodup) : lookupA (eraseA l c) c = none := by
  induction l with
  | nil => simp [eraseA, lookupA]
  | cons hd rest ih =>
    simp only [List.map_cons, List.nodup_cons] at h
    by_cases hh : hd.1 = c
    · rw [eraseA, if_pos hh]
      cases hl : lookupA rest c with
      | none => exact rfl
      | some v =>
        exact absurd (List.mem_map.2 ⟨(c, v), mem_of_lookupA hl, rfl⟩) (hh ▸ h.1)
    · rw [eraseA, if_neg hh, lookupA, if_neg hh]
      exact ih h.2

theorem lookupA_isSome_of_eraseA {l : PinMap} {c x : Cid}
    (h : (lookupA (eraseA l c) x).isSome) : (lookupA l x).isSome := by
  induction l with
  | nil => simpa [eraseA] using h
  | cons hd rest ih =>
    by_cases hh : hd.1 = c
    · rw [eraseA, if_pos hh] at h
      rw [lookupA]
      by_cases hx : hd.1 = x
      · simp [hx]
      · rw [if_neg hx]
        exact h
    · rw [eraseA, if_neg hh, lookupA] at h
      rw [lookupA]
      by_cases hx : hd.1 = x
      · simp [hx]
      · rw [if_neg hx] at h ⊢
        exact ih h

theorem lookupA_eq_some_of_mem {l : PinMap} {c : Cid} {v : PinnedCid}
    (hnodup : (l.map Prod.fst).Nodup) (h : (c, v) ∈ l) : lookupA l c = some v := by
  induction l with
  | nil => simp at h
  | cons hd rest ih =>
    simp only [List.map_cons, List.nodup_cons] at hnodup
    rcases List.mem_cons.1 h with h2 | h2
    · rw [← h2, lookupA, if_pos rfl]
    · rw [lookupA]
      by_cases hh : hd.1 = c
      · exact absurd (List.mem_map.2 ⟨(c, v), h2, rfl⟩) (hh ▸ hnodup.1)
      · rw [if_neg hh]
        exact ih hnodup.2 h2

theorem isSome_lookupA_updA (l : PinMap) (c x : Cid) (v : PinnedCid) :
    (lookupA (updA l c v) x).isSome ↔ (x = c ∨ (lookupA l x).isSome) := by
  by_cases h : x = c
  · subst h
    simp [lookupA_updA_self]
  · rw [lookupA_updA_ne _ _ _ _ h]
    simp [h]
/-! ### Pin list lemmas -/

theorem findPinIdx_none_iff {iid : APIID} {l : List Pin} :
    findPinIdx iid l = none ↔ ∀ p ∈ l, p.apiid ≠ iid := by
  induction l with
  | nil => simp [findPinIdx]
  | cons p rest ih =>
    by_cases h : p.apiid = iid
    · simp [findPinIdx, h]
    · simp [findPinIdx, h, ih]

theorem findPinIdx_some_lt {iid : APIID} {l : List Pin} {i : Nat}
    (h : findPinIdx iid l = some i) : i < l.length := by
  induction l generalizing i with
  | nil => simp [findPinIdx] at h
  | cons p rest ih =>
    by_cases hp : p.apiid = iid
    · rw [findPinIdx, if_pos hp] at h
      cases h
      simp
    · rw [findPinIdx, if_neg hp] at h
      cases hrec : findPinIdx iid rest with
      | none => rw [hrec] at h; simp at h
      | some j =>
        rw [hrec] at h
        simp only [Option.map_some', Option.some.injEq] at h
        cases h
        simpa using Nat.succ_lt_succ (ih hrec)

theorem findPinIdx_some_getD {iid : APIID} {l : List Pin} {i : Nat} (d : Pin)
    (h : findPinIdx iid l = some i) : (l.getD i d).apiid = iid := by
  induction l generalizing i with
  | nil => simp [findPinIdx] at h
  | cons p rest ih =>
    by_cases hp : p.apiid = iid
    · rw [findPinIdx, if_pos hp] at h
      cases h
      simpa using hp
    · rw [findPinIdx, if_neg hp] at h
      cases hrec : findPinIdx iid rest with
      | none => rw [hrec] at h; simp at h
      | some j =>
        rw [hrec] at h
        simp only [Option.map_some', Option.some.injEq] at h
        cases h
        simpa using ih hrec

theorem find?_eq_none_of_findPinIdx_none {iid : APIID} {l : List Pin}
    (h : findPinIdx iid l = none) :
    l.find? (fun p => p.apiid == iid) = none := by
  rw [List.find?_eq_none]
  intro p hp
  simpa using (findPinIdx_none_iff.1 h) p hp

theorem find?_eq_getD_of_findPinIdx {iid : APIID} {l : List Pin} {i : Nat} (d : Pin)
    (h : findPinIdx iid l = some i) :
    l.find? (fun p => p.apiid == iid) = some (l.getD i d) := by
  induction l generalizing i with
  | nil => simp [findPinIdx] at h
  | cons p rest ih =>
    by_cases hp : p.apiid = iid
    · rw [findPinIdx, if_pos hp] at h
      cases h
      rw [List.find?_cons_of_pos _ (by simpa using hp)]
      simp
    · rw [findPinIdx, if_neg hp] at h
      cases hrec : findPinIdx iid rest with
      | none => rw [hrec] at h; simp at h
      | some j =>
        rw [hrec] at h
        simp only [Option.map_some', Option.some.injEq] at h
        cases h
        rw [List.find?_cons_of_neg _ (by simpa using hp)]
        simpa using ih hrec

theorem find?_set_at_findPinIdx {iid : APIID} {l : List Pin} {i : Nat} {a : Pin}
    (h : findPinIdx iid l = some i) (ha : a.apiid = iid) :
    (l.set i a).find? (fun p => p.apiid == iid) = some a := by
  induction l generalizing i with
  | nil => simp [findPinIdx] at h
  | cons p rest ih =>
    by_cases hp : p.apiid = iid
    · rw [findPinIdx, if_pos hp] at h
      cases h
      rw [List.set_cons_zero, List.find?_cons_of_pos _ (by simpa using ha)]
    · rw [findPinIdx, if_neg hp] at h
      cases hrec : findPinIdx iid rest with
      | none => rw [hrec] at h; simp at h
      | some j =>
        rw [hrec] at h
        simp only [Option.map_some', Option.some.injEq] at h
        cases h
        rw [List.set_cons_succ, List.find?_cons_of_neg _ (by simpa using hp)]
        exact ih hrec

theorem find?_set_of_ne {l : List Pin} {i : Nat} {a : Pin} {t : APIID} (d : Pin)
    (hi : i < l.length) (hold : (l.getD i d).apiid ≠ t) (hnew : a.apiid ≠ t) :
    (l.set i a).find? (fun p => p.apiid == t) = l.find? (fun p => p.apiid == t) := by
  induction l generalizing i with
  | nil => simp at hi
  | cons p rest ih =>
    cases i with
    | zero =>
      simp only [List.getD_cons_zero] at hold
      rw [List.set_cons_zero, List.find?_cons_of_neg _ (by simpa using hnew),
        List.find?_cons_of_neg _ (by simpa using hold)]
    | succ j =>
      simp only [List.getD_cons_succ] at hold
      rw [List.set_cons_succ]
      by_cases hp : p.apiid = t
      · rw [List.find?_cons_of_pos _ (by simpa using hp),
          List.find?_cons_of_pos _ (by simpa using hp)]
      · rw [List.find?_cons_of_neg _ (by simpa using hp),
          List.find?_cons_of_neg _ (by simpa using hp)]
        exact ih (by simpa using hi) hold

theorem map_apiid_set_same {l : List Pin} {i : Nat} {a : Pin} (d : Pin)
    (hi : i < l.length) (heq : a.apiid = (l.getD i d).apiid) :
    (l.set i a).map Pin.apiid = l.map Pin.apiid := by
  induction l generalizing i with
  | nil => simp at hi
  | cons p rest ih =>
    cases i with
    | zero =>
      simp only [List.getD_cons_zero] at heq
      simp [List.set_cons_zero, heq]
    | succ j =>
      simp only [List.getD_cons_succ] at heq
      simp only [List.set_cons_succ, List.map_cons]
      rw [ih (by simpa using hi) heq]

theorem set_getD_self (l : List Pin) (i : Nat) (d : Pin) (hi : i < l.length) :
    l.set i (l.getD i d) = l := by
  induction l generalizing i with
  | nil => simp at hi
  | cons a rest ih =>
    cases i with
    | zero => simp
    | succ j => rw [List.getD_cons_succ, List.set_cons_succ, ih j (by simpa using hi)]

theorem swap_remove_perm (l : List Pin) (i : Nat) (d : Pin) (hi : i < l.length)
    (hne : l ≠ []) :
    ((l.set i (l.getLast hne)).dropLast).Perm (l.eraseIdx i) := by
  by_cases hlast : i + 1 = l.length
  · have h1 : l.getLast hne = l.getD i d := by
      rw [List.getLast_eq_getElem, List.getD_eq_getElem _ _ hi]
      congr 1
      omega
    rw [h1, set_getD_self l i d hi, List.dropLast_eq_eraseIdx hlast]
  · have hdrop_ne : l.drop (i + 1) ≠ [] := by
      rw [ne_eq, List.drop_eq_nil_iff]
      omega
    have hset : l.set i (l.getLast hne) = l.take i ++ l.getLast hne :: l.drop (i + 1) := by
      rw [List.set_eq_take_append_cons_drop, if_pos hi]
    have hlastdrop : (l.drop (i + 1)).getLast hdrop_ne = l.getLast hne :=
      List.getLast_drop _
    have hdecomp : l.drop (i + 1) = (l.drop (i + 1)).dropLast ++ [l.getLast hne] := by
      conv_lhs => rw [← List.dropLast_append_getLast hdrop_ne]
      rw [hlastdrop]
    have hdl : (l.take i ++ l.getLast hne :: l.drop (i + 1)).dropLast
        = l.take i ++ (l.getLast hne :: (l.drop (i + 1)).dropLast) := by
      rw [List.dropLast_append_of_ne_nil _ (by simp), List.dropLast_cons_of_ne_nil hdrop_ne]
    rw [hset, hdl, List.eraseIdx_eq_take_drop_succ]
    conv_rhs => rw [hdecomp]
    exact List.Perm.append_left _ (List.perm_append_singleton _ _).symm

/-! ### Per-tenant uniqueness of pin records -/

/-- At most one pin record per APIID within an entry (spec §3 invariant). -/
def uniqPins (l : List Pin) : Prop := (l.map Pin.apiid).Nodup

instance : DecidablePred uniqPins := fun l => List.nodupDecidable (l.map Pin.apiid)

theorem getD_mem (l : List Pin) (i : Nat) (d : Pin) (hi : i < l.length) :
    l.getD i d ∈ l := by
  induction l generalizing i with
  | nil => simp at hi
  | cons a rest ih =>
    cases i with
    | zero => simp
    | succ j =>
      rw [List.getD_cons_succ]
      exact List.mem_cons_of_mem _ (ih j (by simpa using hi))

theorem apiid_ne_of_mem_eraseIdx {l : List Pin} {i : Nat} (d : Pin)
    (hu : uniqPins l) (hi : i < l.length) :
    ∀ x ∈ l.eraseIdx i, x.apiid ≠ (l.getD i d).apiid := by
  induction l generalizing i with
  | nil => simp at hi
  | cons a rest ih =>
    have hcons := hu
    rw [uniqPins, List.map_cons, List.nodup_cons] at hcons
    cases i with
    | zero =>
      rw [List.eraseIdx_cons_zero, List.getD_cons_zero]
      intro x hx hsame
      exact hcons.1 (hsame ▸ List.mem_map.2 ⟨x, hx, rfl⟩)
    | succ j =>
      rw [List.eraseIdx_cons_succ, List.getD_cons_succ]
      intro x hx
      rcases List.mem_cons.1 hx with h | h
      · subst h
        intro hsame
        have : (rest.getD j d).apiid ∈ rest.map Pin.apiid :=
          List.mem_map.2 ⟨_, getD_mem rest j d (by simpa using hi), rfl⟩
        exact hcons.1 (hsame ▸ this)
      · exact ih hcons.2 (by simpa using hi) x h

theorem find?_apiid_eq_of_perm {l l2 : List Pin} {t : APIID}
    (hu : uniqPins l) (hp : l.Perm l2) :
    l2.find? (fun p => p.apiid == t) = l.find? (fun p => p.apiid == t) := by
  cases hf : l.find? (fun p => p.apiid == t) with
  | none =>
    rw [List.find?_eq_none] at hf ⊢
    intro x hx
    exact hf x (hp.mem_iff.2 hx)
  | some a =>
    have ha := List.find?_some hf
    have hamem := List.mem_of_find?_eq_some hf
    have hsome : (l2.find? (fun p => p.apiid == t)).isSome := by
      rw [List.find?_isSome]
      exact ⟨a, hp.mem_iff.1 hamem, ha⟩
    cases hf2 : l2.find? (fun p => p.apiid == t) with
    | none => rw [hf2] at hsome; simp at hsome
    | some b =>
      have hb := List.find?_some hf2
      have hbmem := hp.mem_iff.2 (List.mem_of_find?_eq_some hf2)
      have hba : b = a := by
        refine List.inj_on_of_nodup_map hu hbmem hamem ?_
        simp only [beq_iff_eq] at ha hb
        rw [ha, hb]
      rw [hba]

theorem find?_eraseIdx_self_none {l : List Pin} {i : Nat} {t : APIID} (d : Pin)
    (hu : uniqPins l) (hi : i < l.length) (ht : (l.getD i d).apiid = t) :
    (l.eraseIdx i).find? (fun p => p.apiid == t) = none := by
  rw [List.find?_eq_none]
  intro x hx
  simp only [beq_iff_eq]
  rw [← ht]
  exact apiid_ne_of_mem_eraseIdx d hu hi x hx

theorem find?_eraseIdx_of_ne {l : List Pin} {i : Nat} {t : APIID} (d : Pin)
    (hi : i < l.length) (hne : (l.getD i d).apiid ≠ t) :
    (l.eraseIdx i).find? (fun p => p.apiid == t) = l.find? (fun p => p.apiid == t) := by
  induction l generalizing i with
  | nil => simp at hi
  | cons a rest ih =>
    cases i with
    | zero =>
      rw [List.getD_cons_zero] at hne
      rw [List.eraseIdx_cons_zero, List.find?_cons_of_neg _ (by simpa using hne)]
    | succ j =>
      rw [List.getD_cons_succ] at hne
      rw [List.eraseIdx_cons_succ]
      by_cases hq : a.apiid = t
      · rw [List.find?_cons_of_pos _ (by simpa using hq),
          List.find?_cons_of_pos _ (by simpa using hq)]
      · rw [List.find?_cons_of_neg _ (by simpa using hq),
          List.find?_cons_of_neg _ (by simpa using hq)]
        exact ih (by simpa using hi) hne

theorem uniqPins_of_perm {l l2 : List Pin} (hp : l.Perm l2) (hu : uniqPins l) :
    uniqPins l2 :=
  (hp.map Pin.apiid).nodup_iff.1 hu

theorem uniqPins_eraseIdx {l : List Pin} (i : Nat) (hu : uniqPins l) :
    uniqPins (l.eraseIdx i) := by
  have hsub : List.Sublist ((l.eraseIdx i).map Pin.apiid) (l.map Pin.apiid) :=
    (List.eraseIdx_sublist l i).map Pin.apiid
  exact hsub.nodup hu

theorem uniqPins_set_same {l : List Pin} {i : Nat} {a : Pin} (d : Pin)
    (hi : i < l.length) (heq : a.apiid = (l.getD i d).apiid) (hu : uniqPins l) :
    uniqPins (l.set i a) := by
  rw [uniqPins, map_apiid_set_same d hi heq]
  exact hu

theorem uniqPins_append_new {l : List Pin} {a : Pin}
    (hu : uniqPins l) (hnew : ∀ p ∈ l, p.apiid ≠ a.apiid) :
    uniqPins (l ++ [a]) := by
  have hperm : List.Perm ((l ++ [a]).map Pin.apiid) (a.apiid :: l.map Pin.apiid) := by
    rw [List.map_append]
    simp only [List.map_cons, List.map_nil]
    exact List.perm_append_singleton a.apiid (l.map Pin.apiid)
  rw [uniqPins, hperm.nodup_iff, List.nodup_cons]
  refine ⟨fun hm => ?_, hu⟩
  rcases List.mem_map.1 hm with ⟨p, hp, he⟩
  exact hnew p hp he

/-! ### Ledger well-formedness -/

/-- Well-formed ledger state: datastore and cache keys are duplicate-free,
every cached entry is keyed by its own Cid, and each entry holds at most one
pin record per APIID. -/
def Store.Wf (s : Store) : Prop :=
  (s.ds.map Prod.fst).Nodup ∧ (s.cache.map Prod.fst).Nodup ∧
    (∀ kv ∈ s.cache, kv.2.cid = kv.1) ∧ (∀ kv ∈ s.cache, uniqPins kv.2.pins)

instance (s : Store) : Decidable (Store.Wf s) := by
  unfold Store.Wf
  infer_instance

/-! ### Claim C7: RefCount invariant -/

/-- C7: in every ledger state (hence in every reachable one), RefCount returns
a pair (total, staged) with staged ≤ total, and returns (0, 0) when the Cid
has no entry.  RefCount is a pure observation of the state in this embedding,
so it mutates nothing. -/
theorem C7_refCount_invariant (s : Store) (c : Cid) :
    (Store.RefCount s c).2 ≤ (Store.RefCount s c).1 ∧
    (lookupA s.cache c = none → Store.RefCount s c = (0, 0)) := by
  constructor
  · rw [Store.RefCount]
    cases lookupA s.cache c with
    | none => simp
    | some r => simpa using List.length_filter_le (fun p => p.staged) r.pins
  · intro h
    rw [Store.RefCount, h]

/-- Witness for C7 at a concrete state. -/
theorem C7_refCount_invariant_witness :
    (Store.RefCount { ds := [], cache := [] } 2).2 ≤
      (Store.RefCount { ds := [], cache := [] } 2).1 ∧
    (lookupA ({ ds := [], cache := [] } : Store).cache 2 = none →
      Store.RefCount { ds := [], cache := [] } 2 = (0, 0)) :=
  C7_refCount_invariant { ds := [], cache := [] } 2

/-! ### Claim C1: RemoveStaged must purge both store and cache -/

/-- A ledger holding a single Cid 1 staged by tenant 7 at time 0. -/
def c1State : Store :=
  { ds := [(1, { cid := 1, pins := [{ apiid := 7, staged := true, createdAt := 0 }] })],
    cache := [(1, { cid := 1, pins := [{ apiid := 7, staged := true, createdAt := 0 }] })] }

/-- C1 (code bug): a successful RemoveStaged on an all-staged entry deletes it
from the persisted store, yet the entry survives in the in-memory cache
(`s.cache[c] = pc1` instead of a delete), so IsPinned still reports true,
RefCount still reports (1, 1) and GetAllOnlyStaged still lists the Cid. -/
theorem C1_removeStaged_keeps_cache_entry :
    (Store.RemoveStaged c1State 1 true).2 = none ∧
    lookupA (Store.RemoveStaged c1State 1 true).1.ds 1 = none ∧
    Store.IsPinned (Store.RemoveStaged c1State 1 true).1 1 = true ∧
    Store.RefCount (Store.RemoveStaged c1State 1 true).1 1 = (1, 1) ∧
    (Store.GetAllOnlyStaged (Store.RemoveStaged c1State 1 true).1).map PinnedCid.cid = [1] := by
  decide

theorem updA_updA_same (l : PinMap) (c : Cid) (v1 v2 : PinnedCid) :
    updA (updA l c v1) c v2 = updA l c v2 := by
  induction l with
  | nil => simp [updA]
  | cons kv rest ih =>
    by_cases hh : kv.1 = c
    · rw [updA, if_pos hh, updA, if_pos rfl, updA, if_pos hh]
    · rw [updA, if_neg hh, updA, if_neg hh, updA, if_neg hh, ih]

theorem findPinIdx_none_iff_find?_none {iid : APIID} {l : List Pin} :
    findPinIdx iid l = none ↔ l.find? (fun p => p.apiid == iid) = none := by
  rw [findPinIdx_none_iff, List.find?_eq_none]
  simp

/-! ### Claim C9: entries with an emptied pin set stay observable -/

/-- A ledger holding Cid 1 pinned durably by the single tenant 7. -/
def c9State : Store :=
  { ds := [(1, { cid := 1, pins := [{ apiid := 7, staged := false, createdAt := 5 }] })],
    cache := [(1, { cid := 1, pins := [{ apiid := 7, staged := false, createdAt := 5 }] })] }

/-- C9 counterexample: removing the last remaining record leaves the entry in
the ledger with an empty pin set; IsPinned still reports true and the Cid is
still produced by GetAllOnlyStaged — the claim asserts both observations are
negative. -/
theorem C9_empty_entry_still_observable :
    (Store.Remove c9State 7 1 true).2 = none ∧
    Store.IsPinned (Store.Remove c9State 7 1 true).1 1 = true ∧
    (Store.GetAllOnlyStaged (Store.Remove c9State 7 1 true).1).map PinnedCid.cid = [1] := by
  decide

/-- C9 amended: after Remove deletes a tenant's sole record, the entry is
persisted with an empty pin set and remains observably present: IsPinned
returns true and the Cid appears in GetAllOnlyStaged (vacuously all-staged),
while RefCount reports (0, 0). -/
theorem C9_amended_empty_entry_persists (s : Store) (c : Cid) (r : PinnedCid) (p : Pin)
    (hl : lookupA s.cache c = some r) (hcid : r.cid = c) (hp : r.pins = [p]) :
    (Store.Remove s p.apiid c true).2 = none ∧
    lookupA (Store.Remove s p.apiid c true).1.cache c = some { cid := c, pins := [] } ∧
    Store.IsPinned (Store.Remove s p.apiid c true).1 c = true ∧
    c ∈ (Store.GetAllOnlyStaged (Store.Remove s p.apiid c true).1).map PinnedCid.cid ∧
    Store.RefCount (Store.Remove s p.apiid c true).1 c = (0, 0) := by
  subst hcid
  have hres : Store.Remove s p.apiid r.cid true =
      ({ ds := updA s.ds r.cid { cid := r.cid, pins := [] },
         cache := updA (updA s.cache r.cid { cid := r.cid, pins := [p] })
           r.cid { cid := r.cid, pins := [] } }, none) := by
    simp [Store.Remove, hl, hp, findPinIdx, Store.persist]
  have hcol : updA (updA s.cache r.cid { cid := r.cid, pins := [p] })
      r.cid { cid := r.cid, pins := [] } = updA s.cache r.cid { cid := r.cid, pins := [] } :=
    updA_updA_same _ _ _ _
  rw [hres]
  have hlook : lookupA (updA s.cache r.cid { cid := r.cid, pins := [] }) r.cid =
      some { cid := r.cid, pins := [] } := lookupA_updA_self _ _ _
  refine ⟨rfl, ?_, ?_, ?_, ?_⟩
  · simp only [hcol]
    exact hlook
  · rw [Store.IsPinned]
    simp only [hcol, hlook]
    rfl
  · have hmem : (r.cid, ({ cid := r.cid, pins := [] } : PinnedCid)) ∈
        updA s.cache r.cid { cid := r.cid, pins := [] } := mem_of_lookupA hlook
    refine List.mem_map.2 ⟨{ cid := r.cid, pins := [] }, ?_, rfl⟩
    rw [Store.GetAllOnlyStaged]
    simp only [hcol]
    refine List.mem_filter.2 ⟨List.mem_map.2 ⟨_, hmem, rfl⟩, by simp⟩
  · rw [Store.RefCount]
    simp only [hcol, hlook]
    rfl

/-! ### Claim C10: cache atomicity on persistence failure -/

/-- A ledger holding Cid 1 staged by tenant 7 at time 0. -/
def c10State : Store :=
  { ds := [(1, { cid := 1, pins := [{ apiid := 7, staged := true, createdAt := 0 }] })],
    cache := [(1, { cid := 1, pins := [{ apiid := 7, staged := true, createdAt := 0 }] })] }

/-- C10 counterexample: AddStaged on an already-staged record with a failing
datastore Put returns an error, yet the cached record's createdAt has already
been refreshed through the shared pin slice — the cache is not left as it was
before the call. -/
theorem C10_cache_changed_on_put_failure :
    (Store.AddStaged c10State 7 1 99 false).2 = some "put in datastore" ∧
    (Store.AddStaged c10State 7 1 99 false).1.cache ≠ c10State.cache ∧
    Store.pinOf (Store.AddStaged c10State 7 1 99 false).1 1 7 =
      some { apiid := 7, staged := true, createdAt := 99 } := by
  decide

theorem addStaged_putFail (s : Store) (iid : APIID) (c : Cid) (now : Int) :
    (Store.AddStaged s iid c now false).1.ds = s.ds ∧
    (∀ x, Store.IsPinned (Store.AddStaged s iid c now false).1 x = Store.IsPinned s x) ∧
    (Store.pinOf s c iid = none →
      Store.AddStaged s iid c now false = (s, some "put in datastore")) := by
  cases hlc : lookupA s.cache c with
  | none =>
    simp only [Store.AddStaged, hlc, Option.getD_none, findPinIdx, Store.persist,
      Bool.false_eq_true, if_false]
    simp
  | some r =>
    cases hidx : findPinIdx iid r.pins with
    | none =>
      simp only [Store.AddStaged, hlc, Option.getD_some, hidx, Store.persist,
        Bool.false_eq_true, if_false]
      simp
    | some i =>
      cases hst : (r.pins.getD i { apiid := iid, staged := true, createdAt := 0 }).staged with
      | false =>
        simp only [Store.AddStaged, hlc, Option.getD_some, hidx, hst, if_pos rfl]
        refine ⟨by simp, fun x => by simp, fun hpn => ?_⟩
        rw [Store.pinOf, hlc, Option.some_bind,
          find?_eq_getD_of_findPinIdx { apiid := iid, staged := true, createdAt := 0 } hidx] at hpn
        exact absurd hpn (by simp)
      | true =>
        simp only [Store.AddStaged, hlc, Option.getD_some, hidx, hst,
          Bool.true_eq_false, if_false, Store.persist, Bool.false_eq_true]
        refine ⟨by simp, fun x => ?_, fun hpn => ?_⟩
        · by_cases hx : x = c
          · subst hx
            rw [Store.IsPinned, Store.IsPinned, lookupA_updA_self, hlc]
            rfl
          · rw [Store.IsPinned, Store.IsPinned, lookupA_updA_ne _ _ _ _ hx]
        · rw [Store.pinOf, hlc, Option.some_bind,
            find?_eq_getD_of_findPinIdx { apiid := iid, staged := true, createdAt := 0 } hidx] at hpn
          exact absurd hpn (by simp)

theorem add_putFail (s : Store) (iid : APIID) (c : Cid) (now : Int) :
    (Store.Add s iid c now false).1.ds = s.ds ∧
    (∀ x, Store.IsPinned (Store.Add s iid c now false).1 x = Store.IsPinned s x) ∧
    (Store.pinOf s c iid = none →
      Store.Add s iid c now false = (s, some "put in datastore")) := by
  cases hlc : lookupA s.cache c with
  | none =>
    simp only [Store.Add, hlc, Option.getD_none, findPinIdx, Store.persist,
      Bool.false_eq_true, if_false]
    simp
  | some r =>
    cases hidx : findPinIdx iid r.pins with
    | none =>
      simp only [Store.Add, hlc, Option.getD_some, hidx, Store.persist,
        Bool.false_eq_true, if_false]
      simp
    | some i =>
      simp only [Store.Add, hlc, Option.getD_some, hidx, Store.persist,
        Bool.false_eq_true, if_false]
      refine ⟨by simp, fun x => ?_, fun hpn => ?_⟩
      · by_cases hx : x = c
        · subst hx
          rw [Store.IsPinned, Store.IsPinned, lookupA_updA_self, hlc]
          rfl
        · rw [Store.IsPinned, Store.IsPinned, lookupA_updA_ne _ _ _ _ hx]
      · rw [Store.pinOf, hlc, Option.some_bind,
          find?_eq_getD_of_findPinIdx { apiid := iid, staged := true, createdAt := 0 } hidx] at hpn
        exact absurd hpn (by simp)

theorem remove_putFail (s : Store) (iid : APIID) (c : Cid) :
    (Store.Remove s iid c false).1.ds = s.ds ∧
    (∀ x, Store.IsPinned (Store.Remove s iid c false).1 x = Store.IsPinned s x) ∧
    ((Store.Remove s iid c false).2 = none ↔
      (lookupA s.cache c).isSome = true ∧ Store.pinOf s c iid = none) := by
  cases hlc : lookupA s.cache c with
  | none =>
    simp only [Store.Remove, hlc]
    refine ⟨by simp, fun x => by simp, ?_⟩
    simp
  | some r =>
    cases hidx : findPinIdx iid r.pins with
    | none =>
      simp only [Store.Remove, hlc, hidx]
      refine ⟨by simp, fun x => by simp, ?_⟩
      simp only [Option.isSome_some, true_and]
      constructor
      · intro _
        rw [Store.pinOf, hlc, Option.some_bind, ← findPinIdx_none_iff_find?_none]
        exact hidx
      · intro _
        simp
    | some i =>
      simp only [Store.Remove, hlc, hidx, Store.persist, Bool.false_eq_true, if_false]
      refine ⟨by simp, fun x => ?_, ?_⟩
      · by_cases hx : x = c
        · subst hx
          rw [Store.IsPinned, Store.IsPinned, lookupA_updA_self, hlc]
          rfl
        · rw [Store.IsPinned, Store.IsPinned, lookupA_updA_ne _ _ _ _ hx]
      · simp only [Option.isSome_some, true_and]
        constructor
        · intro hcontra
          exact absurd hcontra (by simp)
        · intro hpn
          rw [Store.pinOf, hlc, Option.some_bind,
            find?_eq_getD_of_findPinIdx { apiid := iid, staged := true, createdAt := 0 } hidx] at hpn
          exact absurd hpn (by simp)

/-- C10 amended: when the underlying datastore Put fails the operation reports
the persistence error (except Remove's no-op branches, which never reach the
Put), the persisted store is left unchanged, and no ContentId is added to or
removed from the cache; moreover AddStaged and Add leave the whole state
untouched whenever the tenant held no prior record on the Cid.  What the
original claim misses — shown by the counterexample — is that an existing
record mutated in place through the shared pin slice stays mutated in the
cache even though the Put failed. -/
theorem C10_amended_put_failure (s : Store) (iid : APIID) (c : Cid) (now : Int) :
    ((Store.AddStaged s iid c now false).1.ds = s.ds ∧
      (∀ x, Store.IsPinned (Store.AddStaged s iid c now false).1 x = Store.IsPinned s x) ∧
      (Store.pinOf s c iid = none →
        Store.AddStaged s iid c now false = (s, some "put in datastore"))) ∧
    ((Store.Add s iid c now false).1.ds = s.ds ∧
      (∀ x, Store.IsPinned (Store.Add s iid c now false).1 x = Store.IsPinned s x) ∧
      (Store.pinOf s c iid = none →
        Store.Add s iid c now false = (s, some "put in datastore"))) ∧
    ((Store.Remove s iid c false).1.ds = s.ds ∧
      (∀ x, Store.IsPinned (Store.Remove s iid c false).1 x = Store.IsPinned s x) ∧
      ((Store.Remove s iid c false).2 = none ↔
        (lookupA s.cache c).isSome = true ∧ Store.pinOf s c iid = none)) :=
  ⟨addStaged_putFail s iid c now, add_putFail s iid c now, remove_putFail s iid c⟩

/-- Witness for C10's amended theorem at a concrete state and inputs. -/
theorem C10_amended_put_failure_witness :
    ((Store.AddStaged c10State 7 1 99 false).1.ds = c10State.ds ∧
      (∀ x, Store.IsPinned (Store.AddStaged c10State 7 1 99 false).1 x = Store.IsPinned c10State x) ∧
      (Store.pinOf c10State 1 7 = none →
        Store.AddStaged c10State 7 1 99 false = (c10State, some "put in datastore"))) ∧
    ((Store.Add c10State 7 1 99 false).1.ds = c10State.ds ∧
      (∀ x, Store.IsPinned (Store.Add c10State 7 1 99 false).1 x = Store.IsPinned c10State x) ∧
      (Store.pinOf c10State 1 7 = none →
        Store.Add c10State 7 1 99 false = (c10State, some "put in datastore"))) ∧
    ((Store.Remove c10State 7 1 false).1.ds = c10State.ds ∧
      (∀ x, Store.IsPinned (Store.Remove c10State 7 1 false).1 x = Store.IsPinned c10State x) ∧
      ((Store.Remove c10State 7 1 false).2 = none ↔
        (lookupA c10State.cache 1).isSome = true ∧ Store.pinOf c10State 1 7 = none)) :=
  C10_amended_put_failure c10State 7 1 99

/-- Witness for C9's amended theorem at the concrete one-record ledger. -/
theorem C9_amended_empty_entry_persists_witness :
    (Store.Remove c9State 7 1 true).2 = none ∧
    lookupA (Store.Remove c9State 7 1 true).1.cache 1 = some { cid := 1, pins := [] } ∧
    Store.IsPinned (Store.Remove c9State 7 1 true).1 1 = true ∧
    1 ∈ (Store.GetAllOnlyStaged (Store.Remove c9State 7 1 true).1).map PinnedCid.cid ∧
    Store.RefCount (Store.Remove c9State 7 1 true).1 1 = (0, 0) :=
  C9_amended_empty_entry_persists c9State 1
    { cid := 1, pins := [{ apiid := 7, staged := false, createdAt := 5 }] }
    { apiid := 7, staged := false, createdAt := 5 } (by decide) (by decide) (by decide)

/-! ### Claim C2: partial GC results are discarded -/

/-- An adapter state with two Cids, each staged by one tenant at time 0, both
pinned in the node. -/
def c2State : CoreIpfs :=
  { ipfs := [1, 2],
    ps := { ds := [(1, { cid := 1, pins := [{ apiid := 7, staged := true, createdAt := 0 }] }),
                   (2, { cid := 2, pins := [{ apiid := 8, staged := true, createdAt := 0 }] })],
            cache := [(1, { cid := 1, pins := [{ apiid := 7, staged := true, createdAt := 0 }] }),
                      (2, { cid := 2, pins := [{ apiid := 8, staged := true, createdAt := 0 }] })] } }

/-- C2 counterexample: the node-level unpin succeeds for Cid 1 and fails for
Cid 2.  Cid 1 is fully reclaimed (gone from the node pin set and the persisted
store), yet GCStaged returns the empty (Go nil) list together with the error —
not the claimed partial list [1]. -/
theorem C2_partial_result_discarded :
    (CoreIpfs.GCStaged c2State (fun c => c == 1) (fun _ => true) [] 0).2.1 = [] ∧
    (CoreIpfs.GCStaged c2State (fun c => c == 1) (fun _ => true) [] 0).2.2 =
      some "unpinning cid from ipfs node" ∧
    (CoreIpfs.GCStaged c2State (fun c => c == 1) (fun _ => true) [] 0).1.ipfs = [2] ∧
    lookupA (CoreIpfs.GCStaged c2State (fun c => c == 1) (fun _ => true) [] 0).1.ps.ds 1 = none ∧
    (CoreIpfs.GCStaged c2State (fun c => c == 1) (fun _ => true) [] 0).2.1 ≠ [1] := by
  decide

theorem removeStaged_node_store_mono (s : Store) (c : Cid) (b : Bool) (x : Cid)
    (h : (lookupA (Store.RemoveStaged s c b).1.ds x).isSome = true) :
    (lookupA s.ds x).isSome = true := by
  cases hlc : lookupA s.cache c with
  | none =>
    simp only [Store.RemoveStaged, hlc] at h
    exact h
  | some pc1 =>
    simp only [Store.RemoveStaged, hlc] at h
    by_cases hall : pc1.pins.all (fun p => p.staged)
    · rw [if_pos hall] at h
      cases b with
      | false => exact h
      | true =>
        simp only [if_true] at h
        exact lookupA_isSome_of_eraseA h
    · rw [if_neg hall] at h
      exact h

theorem unpinStaged_mono (ci : CoreIpfs) (rmOk delOk : Cid → Bool) (c : Cid) :
    (∀ x, x ∈ (CoreIpfs.unpinStaged ci rmOk delOk c).1.ipfs → x ∈ ci.ipfs) ∧
    (∀ x, (lookupA (CoreIpfs.unpinStaged ci rmOk delOk c).1.ps.ds x).isSome = true →
      (lookupA ci.ps.ds x).isSome = true) := by
  rw [CoreIpfs.unpinStaged]
  by_cases hcnt : (Store.RefCount ci.ps c).1 ≠ (Store.RefCount ci.ps c).2
  · simp only [if_pos hcnt]
    exact ⟨fun x h => h, fun x h => h⟩
  · simp only [if_neg hcnt]
    by_cases hrm : rmOk c
    · simp only [if_pos hrm]
      constructor
      · intro x hx
        exact List.mem_of_mem_erase hx
      · intro x hx
        exact removeStaged_node_store_mono { ds := ci.ps.ds, cache := ci.ps.cache } c
          (delOk c) x hx
    · simp only [if_neg hrm]
      exact ⟨fun x h => h, fun x h => h⟩

theorem gcLoop_mono (rmOk delOk : Cid → Bool) (l : List Cid) (ci : CoreIpfs) :
    (∀ x, x ∈ (CoreIpfs.gcLoop ci rmOk delOk l).1.ipfs → x ∈ ci.ipfs) ∧
    (∀ x, (lookupA (CoreIpfs.gcLoop ci rmOk delOk l).1.ps.ds x).isSome = true →
      (lookupA ci.ps.ds x).isSome = true) := by
  induction l generalizing ci with
  | nil => exact ⟨fun x h => h, fun x h => h⟩
  | cons c rest ih =>
    rw [CoreIpfs.gcLoop]
    cases he : (CoreIpfs.unpinStaged ci rmOk delOk c).2 with
    | some msg =>
      simp only
      rw [he]
      exact (unpinStaged_mono ci rmOk delOk c)
    | none =>
      simp only
      rw [he]
      constructor
      · intro x hx
        exact (unpinStaged_mono ci rmOk delOk c).1 x
          ((ih (CoreIpfs.unpinStaged ci rmOk delOk c).1).1 x hx)
      · intro x hx
        exact (unpinStaged_mono ci rmOk delOk c).2 x
          ((ih (CoreIpfs.unpinStaged ci rmOk delOk c).1).2 x hx)

/-- C2 amended: when any node-level unpin (or the subsequent ledger purge)
fails partway through, GCStaged returns the Go nil list — modelled as `[]` —
together with the first error, discarding the record of what was already
reclaimed; the loop performs no rollback and never re-adds a pin, so
identifiers reclaimed before the failure stay reclaimed in the node pin set
and the persisted store (monotonicity conjuncts), but the caller cannot learn
them from the return value. -/
theorem C2_amended_gc_failure (ci : CoreIpfs) (rmOk delOk : Cid → Bool)
    (exclude : List Cid) (olderThan : Int) :
    ((CoreIpfs.GCStaged ci rmOk delOk exclude olderThan).2.2.isSome = true →
      (CoreIpfs.GCStaged ci rmOk delOk exclude olderThan).2.1 = []) ∧
    (∀ x, x ∈ (CoreIpfs.GCStaged ci rmOk delOk exclude olderThan).1.ipfs → x ∈ ci.ipfs) ∧
    (∀ x, (lookupA (CoreIpfs.GCStaged ci rmOk delOk exclude olderThan).1.ps.ds x).isSome = true →
      (lookupA ci.ps.ds x).isSome = true) := by
  have hmono := gcLoop_mono rmOk delOk (CoreIpfs.getGCCandidates ci exclude olderThan) ci
  cases he : (CoreIpfs.gcLoop ci rmOk delOk (CoreIpfs.getGCCandidates ci exclude olderThan)).2 with
  | some msg =>
    have hred : CoreIpfs.GCStaged ci rmOk delOk exclude olderThan =
        ((CoreIpfs.gcLoop ci rmOk delOk (CoreIpfs.getGCCandidates ci exclude olderThan)).1,
          [], some msg) := by
      rw [CoreIpfs.GCStaged]
      simp only [he]
    rw [hred]
    exact ⟨fun _ => rfl, hmono.1, hmono.2⟩
  | none =>
    have hred : CoreIpfs.GCStaged ci rmOk delOk exclude olderThan =
        ((CoreIpfs.gcLoop ci rmOk delOk (CoreIpfs.getGCCandidates ci exclude olderThan)).1,
          CoreIpfs.getGCCandidates ci exclude olderThan, none) := by
      rw [CoreIpfs.GCStaged]
      simp only [he]
    rw [hred]
    refine ⟨fun hcontra => ?_, hmono.1, hmono.2⟩
    simp at hcontra

/-- Witness for C2's amended theorem at the concrete two-Cid state with a
failing unpin for Cid 2. -/
theorem C2_amended_gc_failure_witness :
    ((CoreIpfs.GCStaged c2State (fun c => c == 1) (fun _ => true) [] 0).2.2.isSome = true →
      (CoreIpfs.GCStaged c2State (fun c => c == 1) (fun _ => true) [] 0).2.1 = []) ∧
    (∀ x, x ∈ (CoreIpfs.GCStaged c2State (fun c => c == 1) (fun _ => true) [] 0).1.ipfs →
      x ∈ c2State.ipfs) ∧
    (∀ x, (lookupA (CoreIpfs.GCStaged c2State (fun c => c == 1) (fun _ => true) [] 0).1.ps.ds
        x).isSome = true → (lookupA c2State.ps.ds x).isSome = true) :=
  C2_amended_gc_failure c2State (fun c => c == 1) (fun _ => true) [] 0

/-! ### Claim C5: exclusion scenario across two GC runs -/

/-- Two Cids staged by one tenant each at time 0, both pinned in the node. -/
def c5State : CoreIpfs :=
  { ipfs := [1, 2],
    ps := { ds := [(1, { cid := 1, pins := [{ apiid := 7, staged := true, createdAt := 0 }] }),
                   (2, { cid := 2, pins := [{ apiid := 8, staged := true, createdAt := 0 }] })],
            cache := [(1, { cid := 1, pins := [{ apiid := 7, staged := true, createdAt := 0 }] }),
                      (2, { cid := 2, pins := [{ apiid := 8, staged := true, createdAt := 0 }] })] } }

/-- C5 (code bug): GCStaged(exclude={1}) reclaims exactly [2] as the claim
says, but the follow-up GCStaged with no exclusions returns [1, 2], not
exactly {1}: RemoveStaged left Cid 2 in the cache, so the second run selects
it again (node unpins modelled as idempotent per the interface contract). -/
theorem C5_second_gc_selects_stale_entry :
    (CoreIpfs.GCStaged c5State (fun _ => true) (fun _ => true) [1] 0).2.1 = [2] ∧
    (CoreIpfs.GCStaged c5State (fun _ => true) (fun _ => true) [1] 0).2.2 = none ∧
    (CoreIpfs.GCStaged (CoreIpfs.GCStaged c5State (fun _ => true) (fun _ => true) [1] 0).1
      (fun _ => true) (fun _ => true) [] 0).2.1 = [1, 2] ∧
    (CoreIpfs.GCStaged (CoreIpfs.GCStaged c5State (fun _ => true) (fun _ => true) [1] 0).1
      (fun _ => true) (fun _ => true) [] 0).2.1 ≠ [1] := by
  decide

theorem cid_of_lookupA {s : Store} {c : Cid} {r : PinnedCid} (hwf : Store.Wf s)
    (hl : lookupA s.cache c = some r) : r.cid = c :=
  hwf.2.2.1 (c, r) (mem_of_lookupA hl)

theorem uniq_of_lookupA {s : Store} {c : Cid} {r : PinnedCid} (hwf : Store.Wf s)
    (hl : lookupA s.cache c = some r) : uniqPins r.pins :=
  hwf.2.2.2 (c, r) (mem_of_lookupA hl)

/-- C3: AddStaged never downgrades an existing durable record — a durable
record makes the call a successful no-op; an existing staged record has its
createdAt refreshed to now; a missing record is appended as staged with
createdAt now.  Records of other tenants and entries of other Cids are
untouched in the mutating cases. -/
theorem C3_addStaged_durable_precedence (s : Store) (iid : APIID) (c : Cid) (now : Int)
    (hwf : Store.Wf s) :
    (∀ p, Store.pinOf s c iid = some p → p.staged = false →
      Store.AddStaged s iid c now true = (s, none)) ∧
    (∀ p, Store.pinOf s c iid = some p → p.staged = true →
      (Store.AddStaged s iid c now true).2 = none ∧
      Store.pinOf (Store.AddStaged s iid c now true).1 c iid =
        some { apiid := iid, staged := true, createdAt := now } ∧
      (∀ t2, t2 ≠ iid → Store.pinOf (Store.AddStaged s iid c now true).1 c t2 =
        Store.pinOf s c t2) ∧
      (∀ c2, c2 ≠ c → lookupA (Store.AddStaged s iid c now true).1.cache c2 =
        lookupA s.cache c2)) ∧
    (Store.pinOf s c iid = none →
      (Store.AddStaged s iid c now true).2 = none ∧
      Store.pinOf (Store.AddStaged s iid c now true).1 c iid =
        some { apiid := iid, staged := true, createdAt := now } ∧
      (∀ t2, t2 ≠ iid → Store.pinOf (Store.AddStaged s iid c now true).1 c t2 =
        Store.pinOf s c t2) ∧
      (∀ c2, c2 ≠ c → lookupA (Store.AddStaged s iid c now true).1.cache c2 =
        lookupA s.cache c2)) := by
  cases hlc : lookupA s.cache c with
  | none =>
    have hpo : Store.pinOf s c iid = none := by
      rw [Store.pinOf, hlc, Option.none_bind]
    have hres : Store.AddStaged s iid c now true =
        ({ ds := updA s.ds c { cid := c, pins := [{ apiid := iid, staged := true, createdAt := now }] },
           cache := updA s.cache c { cid := c, pins := [{ apiid := iid, staged := true, createdAt := now }] } },
          none) := by
      simp only [Store.AddStaged, hlc, Option.getD_none, findPinIdx, Store.persist, if_true,
        List.nil_append]
    refine ⟨fun p hp _ => absurd hp (by rw [hpo]; simp), fun p hp _ => absurd hp (by rw [hpo]; simp),
      fun _ => ?_⟩
    rw [hres]
    refine ⟨rfl, ?_, fun t2 ht2 => ?_, fun c2 hc2 => lookupA_updA_ne _ _ _ _ hc2⟩
    · rw [Store.pinOf, lookupA_updA_self, Option.some_bind]
      simp
    · rw [Store.pinOf, lookupA_updA_self, Option.some_bind, Store.pinOf, hlc, Option.none_bind]
      simp [Ne.symm ht2]
  | some r =>
    have hcid := cid_of_lookupA hwf hlc
    have huniq := uniq_of_lookupA hwf hlc
    cases hidx : findPinIdx iid r.pins with
    | none =>
      have hpo : Store.pinOf s c iid = none := by
        rw [Store.pinOf, hlc, Option.some_bind, find?_eq_none_of_findPinIdx_none hidx]
      have hres : Store.AddStaged s iid c now true =
          ({ ds := updA s.ds c { cid := r.cid, pins := r.pins ++ [{ apiid := iid, staged := true, createdAt := now }] },
             cache := updA s.cache c { cid := r.cid, pins := r.pins ++ [{ apiid := iid, staged := true, createdAt := now }] } },
            none) := by
        simp only [Store.AddStaged, hlc, Option.getD_some, hidx, Store.persist, if_true, hcid]
      refine ⟨fun p hp _ => absurd hp (by rw [hpo]; simp),
        fun p hp _ => absurd hp (by rw [hpo]; simp), fun _ => ?_⟩
      rw [hres]
      refine ⟨rfl, ?_, fun t2 ht2 => ?_, fun c2 hc2 => lookupA_updA_ne _ _ _ _ hc2⟩
      · rw [Store.pinOf, lookupA_updA_self, Option.some_bind, List.find?_append,
          find?_eq_none_of_findPinIdx_none hidx, Option.none_or]
        simp
      · rw [Store.pinOf, lookupA_updA_self, Option.some_bind, List.find?_append,
          Store.pinOf, hlc, Option.some_bind]
        have hsingle : List.find? (fun p => p.apiid == t2)
            ([{ apiid := iid, staged := true, createdAt := now }] : List Pin) = none := by
          simp [Ne.symm ht2]
        rw [hsingle, Option.or_none]
    | some i =>
      have hlt : i < r.pins.length := findPinIdx_some_lt hidx
      have hap := findPinIdx_some_getD { apiid := iid, staged := true, createdAt := 0 } hidx
      have hpo : Store.pinOf s c iid =
          some (r.pins.getD i { apiid := iid, staged := true, createdAt := 0 }) := by
        rw [Store.pinOf, hlc, Option.some_bind,
          find?_eq_getD_of_findPinIdx { apiid := iid, staged := true, createdAt := 0 } hidx]
      cases hst : (r.pins.getD i { apiid := iid, staged := true, createdAt := 0 }).staged with
      | false =>
        have hres : Store.AddStaged s iid c now true = (s, none) := by
          simp only [Store.AddStaged, hlc, Option.getD_some, hidx, hst, if_pos rfl, if_true]
        refine ⟨fun p _ _ => hres, fun p hp hpst => ?_, fun hp => ?_⟩
        · rw [hpo] at hp
          cases hp
          rw [hst] at hpst
          exact absurd hpst (by simp)
        · rw [hpo] at hp
          simp at hp
      | true =>
        have hres : Store.AddStaged s iid c now true =
            ({ ds := updA s.ds c { cid := r.cid, pins := r.pins.set i { apiid := iid, staged := true, createdAt := now } },
               cache := updA s.cache c { cid := r.cid, pins := r.pins.set i { apiid := iid, staged := true, createdAt := now } } },
              none) := by
          simp only [Store.AddStaged, hlc, Option.getD_some, hidx, hst, Bool.true_eq_false,
            if_false, Store.persist, if_true, hcid, updA_updA_same, hap]
        refine ⟨fun p hp hpst => ?_, fun p hp hpst => ?_, fun hp => ?_⟩
        · rw [hpo] at hp
          cases hp
          rw [hst] at hpst
          exact absurd hpst (by simp)
        · rw [hres]
          refine ⟨rfl, ?_, fun t2 ht2 => ?_, fun c2 hc2 => lookupA_updA_ne _ _ _ _ hc2⟩
          · rw [Store.pinOf, lookupA_updA_self, Option.some_bind,
              find?_set_at_findPinIdx hidx rfl]
          · rw [Store.pinOf, lookupA_updA_self, Option.some_bind, Store.pinOf, hlc,
              Option.some_bind,
              find?_set_of_ne { apiid := iid, staged := true, createdAt := 0 } hlt
                (by rw [hap]; exact Ne.symm ht2) (Ne.symm ht2)]
        · rw [hpo] at hp
          simp at hp

/-- A ledger where tenant 7 durably pins Cid 1 and tenant 8 stages Cid 1. -/
def c3State : Store :=
  { ds := [(1, { cid := 1, pins := [{ apiid := 7, staged := false, createdAt := 3 }, { apiid := 8, staged := true, createdAt := 4 }] })],
    cache := [(1, { cid := 1, pins := [{ apiid := 7, staged := false, createdAt := 3 }, { apiid := 8, staged := true, createdAt := 4 }] })] }

/-- Witness for C3 at a concrete two-tenant ledger. -/
theorem C3_addStaged_durable_precedence_witness :
    (∀ p, Store.pinOf c3State 1 7 = some p → p.staged = false →
      Store.AddStaged c3State 7 1 42 true = (c3State, none)) ∧
    (∀ p, Store.pinOf c3State 1 7 = some p → p.staged = true →
      (Store.AddStaged c3State 7 1 42 true).2 = none ∧
      Store.pinOf (Store.AddStaged c3State 7 1 42 true).1 1 7 =
        some { apiid := 7, staged := true, createdAt := 42 } ∧
      (∀ t2, t2 ≠ 7 → Store.pinOf (Store.AddStaged c3State 7 1 42 true).1 1 t2 =
        Store.pinOf c3State 1 t2) ∧
      (∀ c2, c2 ≠ 1 → lookupA (Store.AddStaged c3State 7 1 42 true).1.cache c2 =
        lookupA c3State.cache c2)) ∧
    (Store.pinOf c3State 1 7 = none →
      (Store.AddStaged c3State 7 1 42 true).2 = none ∧
      Store.pinOf (Store.AddStaged c3State 7 1 42 true).1 1 7 =
        some { apiid := 7, staged := true, createdAt := 42 } ∧
      (∀ t2, t2 ≠ 7 → Store.pinOf (Store.AddStaged c3State 7 1 42 true).1 1 t2 =
        Store.pinOf c3State 1 t2) ∧
      (∀ c2, c2 ≠ 1 → lookupA (Store.AddStaged c3State 7 1 42 true).1.cache c2 =
        lookupA c3State.cache c2)) :=
  C3_addStaged_durable_precedence c3State 7 1 42 (by decide)

/-- C6: Remove fails with the NotFound error exactly when the Cid has no
entry; with an entry but no record for the tenant it is a silent no-op that
changes nothing; otherwise it deletes exactly the tenant's record, leaving
every other tenant's record and every other Cid's entry intact. -/
theorem C6_remove_spec (s : Store) (iid : APIID) (c : Cid) (hwf : Store.Wf s) :
    ((Store.Remove s iid c true).2.isSome = true ↔ lookupA s.cache c = none) ∧
    (lookupA s.cache c = none → Store.Remove s iid c true = (s, some "c1 isn't pinned")) ∧
    ((lookupA s.cache c).isSome = true → Store.pinOf s c iid = none →
      Store.Remove s iid c true = (s, none)) ∧
    (∀ p, Store.pinOf s c iid = some p →
      (Store.Remove s iid c true).2 = none ∧
      Store.pinOf (Store.Remove s iid c true).1 c iid = none ∧
      (∀ t2, t2 ≠ iid → Store.pinOf (Store.Remove s iid c true).1 c t2 = Store.pinOf s c t2) ∧
      (∀ c2, c2 ≠ c → lookupA (Store.Remove s iid c true).1.cache c2 = lookupA s.cache c2)) := by
  cases hlc : lookupA s.cache c with
  | none =>
    have hpo : Store.pinOf s c iid = none := by
      rw [Store.pinOf, hlc, Option.none_bind]
    have hres : Store.Remove s iid c true = (s, some "c1 isn't pinned") := by
      simp only [Store.Remove, hlc]
    rw [hres]
    exact ⟨by simp, fun _ => rfl, fun hs _ => by simp at hs,
      fun p hp => absurd hp (by rw [hpo]; simp)⟩
  | some r =>
    have hcid := cid_of_lookupA hwf hlc
    have huniq := uniq_of_lookupA hwf hlc
    cases hidx : findPinIdx iid r.pins with
    | none =>
      have hpo : Store.pinOf s c iid = none := by
        rw [Store.pinOf, hlc, Option.some_bind, find?_eq_none_of_findPinIdx_none hidx]
      have hres : Store.Remove s iid c true = (s, none) := by
        simp only [Store.Remove, hlc, hidx]
      rw [hres]
      refine ⟨by simp, fun hcontra => ?_, fun _ _ => rfl,
        fun p hp => absurd hp (by rw [hpo]; simp)⟩
      simp at hcontra
    | some i =>
      have hlt : i < r.pins.length := findPinIdx_some_lt hidx
      have hne : r.pins ≠ [] := by
        intro hnil
        rw [hnil] at hlt
        simp at hlt
      have hap := findPinIdx_some_getD { apiid := iid, staged := true, createdAt := 0 } hidx
      have hpo : Store.pinOf s c iid =
          some (r.pins.getD i { apiid := iid, staged := true, createdAt := 0 }) := by
        rw [Store.pinOf, hlc, Option.some_bind,
          find?_eq_getD_of_findPinIdx { apiid := iid, staged := true, createdAt := 0 } hidx]
      have hgl : r.pins.getLast?.getD { apiid := iid, staged := true, createdAt := 0 } =
          r.pins.getLast hne := by
        rw [List.getLast?_eq_getLast r.pins hne]
        rfl
      have hres : Store.Remove s iid c true =
          ({ ds := updA s.ds c { cid := r.cid, pins := (r.pins.set i (r.pins.getLast hne)).dropLast },
             cache := updA s.cache c { cid := r.cid, pins := (r.pins.set i (r.pins.getLast hne)).dropLast } },
            none) := by
        simp only [Store.Remove, hlc, hidx, hgl, Store.persist, if_true, hcid, updA_updA_same]
      have hperm := swap_remove_perm r.pins i { apiid := iid, staged := true, createdAt := 0 } hlt hne
      have huniqE := uniqPins_eraseIdx i huniq
      rw [hres]
      refine ⟨by simp, fun hcontra => ?_, fun _ hcontra => ?_, fun p hp => ?_⟩
      · simp at hcontra
      · rw [hpo] at hcontra
        cases hcontra
      · refine ⟨rfl, ?_, fun t2 ht2 => ?_, fun c2 hc2 => lookupA_updA_ne _ _ _ _ hc2⟩
        · rw [Store.pinOf, lookupA_updA_self, Option.some_bind,
            find?_apiid_eq_of_perm huniqE hperm.symm,
            find?_eraseIdx_self_none { apiid := iid, staged := true, createdAt := 0 } huniq hlt hap]
        · rw [Store.pinOf, lookupA_updA_self, Option.some_bind,
            find?_apiid_eq_of_perm huniqE hperm.symm,
            find?_eraseIdx_of_ne { apiid := iid, staged := true, createdAt := 0 } hlt
              (by rw [hap]; exact Ne.symm ht2),
            Store.pinOf, hlc, Option.some_bind]

/-- A ledger where tenants 7 and 8 both hold records on Cid 1. -/
def c6State : Store :=
  { ds := [(1, { cid := 1, pins := [{ apiid := 7, staged := false, createdAt := 3 }, { apiid := 8, staged := true, createdAt := 4 }] })],
    cache := [(1, { cid := 1, pins := [{ apiid := 7, staged := false, createdAt := 3 }, { apiid := 8, staged := true, createdAt := 4 }] })] }

/-- Witness for C6 at a concrete two-tenant ledger. -/
theorem C6_remove_spec_witness :
    ((Store.Remove c6State 7 1 true).2.isSome = true ↔ lookupA c6State.cache 1 = none) ∧
    (lookupA c6State.cache 1 = none → Store.Remove c6State 7 1 true = (c6State, some "c1 isn't pinned")) ∧
    ((lookupA c6State.cache 1).isSome = true → Store.pinOf c6State 1 7 = none →
      Store.Remove c6State 7 1 true = (c6State, none)) ∧
    (∀ p, Store.pinOf c6State 1 7 = some p →
      (Store.Remove c6State 7 1 true).2 = none ∧
      Store.pinOf (Store.Remove c6State 7 1 true).1 1 7 = none ∧
      (∀ t2, t2 ≠ 7 → Store.pinOf (Store.Remove c6State 7 1 true).1 1 t2 = Store.pinOf c6State 1 t2) ∧
      (∀ c2, c2 ≠ 1 → lookupA (Store.Remove c6State 7 1 true).1.cache c2 = lookupA c6State.cache c2)) :=
  C6_remove_spec c6State 7 1 (by decide)

theorem mem_getGCCandidates_iff (ci : CoreIpfs) (exclude : List Cid) (olderThan : Int)
    (hwf : Store.Wf ci.ps) (c : Cid) :
    c ∈ CoreIpfs.getGCCandidates ci exclude olderThan ↔
      ∃ pc, lookupA ci.ps.cache c = some pc ∧ (∀ p ∈ pc.pins, p.staged = true) ∧
        c ∉ exclude ∧ (∀ p ∈ pc.pins, p.createdAt ≤ olderThan) := by
  rw [CoreIpfs.getGCCandidates, Store.GetAllOnlyStaged]
  constructor
  · intro h
    rcases List.mem_map.1 h with ⟨pc, hmem, hcidc⟩
    rcases List.mem_filter.1 hmem with ⟨hmem2, hq⟩
    rcases List.mem_filter.1 hmem2 with ⟨hmem3, hall⟩
    rcases List.mem_map.1 hmem3 with ⟨kv, hkv, hsnd⟩
    have hk1 : kv.1 = c := by
      rw [← hwf.2.2.1 kv hkv, hsnd, hcidc]
    have hkv2 : (c, pc) ∈ ci.ps.cache := by
      rw [← hk1, ← hsnd]
      exact hkv
    have hlook : lookupA ci.ps.cache c = some pc :=
      lookupA_eq_some_of_mem hwf.2.1 hkv2
    rw [Bool.and_eq_true, Bool.not_eq_true'] at hq
    refine ⟨pc, hlook, ?_, ?_, ?_⟩
    · intro p hp
      exact List.all_eq_true.1 hall p hp
    · intro hmemc
      rw [← hcidc] at hmemc
      have : pc.cid ∈ exclude → exclude.contains pc.cid = true := fun hx => by
        simpa [List.elem_iff] using hx
      rw [this hmemc] at hq
      exact absurd hq.1 (by simp)
    · intro p hp
      have := List.all_eq_true.1 hq.2 p hp
      simpa using this
  · rintro ⟨pc, hlook, hstaged, hexc, hage⟩
    have hpcid : pc.cid = c := hwf.2.2.1 (c, pc) (mem_of_lookupA hlook)
    refine List.mem_map.2 ⟨pc, ?_, hpcid⟩
    refine List.mem_filter.2 ⟨List.mem_filter.2 ⟨List.mem_map.2 ⟨(c, pc), mem_of_lookupA hlook, rfl⟩, ?_⟩, ?_⟩
    · exact List.all_eq_true.2 hstaged
    · rw [Bool.and_eq_true, Bool.not_eq_true']
      constructor
      · rw [hpcid]
        cases hcon : exclude.contains c
        · rfl
        · exact absurd (by simpa [List.elem_iff] using hcon) hexc
      · exact List.all_eq_true.2 fun p hp => by simpa using hage p hp

/-- C4: getGCCandidates selects exactly the entries all of whose records are
staged, whose Cid is not excluded, and all of whose records are at or before
the cutoff; and unpinStaged re-verifies total == staged via RefCount — failing
with an unchanged state otherwise — and on success has performed both the
node-level unpin and the ledger purge of the persisted entry. -/
theorem C4_gc_candidate_selection (ci : CoreIpfs) (exclude : List Cid) (olderThan : Int)
    (hwf : Store.Wf ci.ps) :
    (∀ c, c ∈ CoreIpfs.getGCCandidates ci exclude olderThan ↔
      ∃ pc, lookupA ci.ps.cache c = some pc ∧ (∀ p ∈ pc.pins, p.staged = true) ∧
        c ∉ exclude ∧ (∀ p ∈ pc.pins, p.createdAt ≤ olderThan)) ∧
    (∀ c rmOk delOk, (Store.RefCount ci.ps c).1 ≠ (Store.RefCount ci.ps c).2 →
      CoreIpfs.unpinStaged ci rmOk delOk c = (ci, some "hasn't only stage-pins")) ∧
    (∀ c rmOk delOk, (CoreIpfs.unpinStaged ci rmOk delOk c).2 = none →
      (Store.RefCount ci.ps c).1 = (Store.RefCount ci.ps c).2 ∧ rmOk c = true ∧
      (CoreIpfs.unpinStaged ci rmOk delOk c).1.ipfs = ci.ipfs.erase c ∧
      lookupA (CoreIpfs.unpinStaged ci rmOk delOk c).1.ps.ds c = none) := by
  refine ⟨mem_getGCCandidates_iff ci exclude olderThan hwf, fun c rmOk delOk hne => ?_,
    fun c rmOk delOk hok => ?_⟩
  · rw [CoreIpfs.unpinStaged]
    simp only [if_pos hne]
  · by_cases hne : (Store.RefCount ci.ps c).1 ≠ (Store.RefCount ci.ps c).2
    · exfalso
      rw [CoreIpfs.unpinStaged] at hok
      simp only [if_pos hne] at hok
      exact Option.noConfusion hok
    · cases hrm : rmOk c with
      | false =>
        exfalso
        rw [CoreIpfs.unpinStaged] at hok
        simp only [if_neg hne, hrm, Bool.false_eq_true, if_false] at hok
        exact Option.noConfusion hok
      | true =>
        have hred : CoreIpfs.unpinStaged ci rmOk delOk c =
            ({ ipfs := ci.ipfs.erase c, ps := (Store.RemoveStaged ci.ps c (delOk c)).1 },
              (Store.RemoveStaged ci.ps c (delOk c)).2) := by
          rw [CoreIpfs.unpinStaged]
          simp only [if_neg hne, hrm, if_true]
        rw [hred] at hok ⊢
        refine ⟨not_ne_iff.1 hne, rfl, rfl, ?_⟩
        cases hl2 : lookupA ci.ps.cache c with
        | none =>
          exfalso
          simp only [Store.RemoveStaged, hl2] at hok
          exact Option.noConfusion hok
        | some pc1 =>
          by_cases hall : pc1.pins.all (fun p => p.staged) = true
          · cases hd : delOk c with
            | false =>
              exfalso
              simp only [Store.RemoveStaged, hl2, if_pos hall, hd, Bool.false_eq_true,
                if_false] at hok
              exact Option.noConfusion hok
            | true =>
              simp only [Store.RemoveStaged, hl2, if_pos hall, hd, if_true]
              exact lookupA_eraseA_self hwf.1
          · exfalso
            simp only [Store.RemoveStaged, hl2, if_neg hall] at hok
            exact Option.noConfusion hok

/-- An adapter state for the C4 witness: Cid 1 staged-only and old, Cid 2
durable. -/
def c4State : CoreIpfs :=
  { ipfs := [1, 2],
    ps := { ds := [(1, { cid := 1, pins := [{ apiid := 7, staged := true, createdAt := 0 }] }),
                   (2, { cid := 2, pins := [{ apiid := 8, staged := false, createdAt := 0 }] })],
            cache := [(1, { cid := 1, pins := [{ apiid := 7, staged := true, createdAt := 0 }] }),
                      (2, { cid := 2, pins := [{ apiid := 8, staged := false, createdAt := 0 }] })] } }

/-- Witness for C4 at a concrete adapter state. -/
theorem C4_gc_candidate_selection_witness :
    (∀ c, c ∈ CoreIpfs.getGCCandidates c4State [] 0 ↔
      ∃ pc, lookupA c4State.ps.cache c = some pc ∧ (∀ p ∈ pc.pins, p.staged = true) ∧
        c ∉ ([] : List Cid) ∧ (∀ p ∈ pc.pins, p.createdAt ≤ 0)) ∧
    (∀ c rmOk delOk, (Store.RefCount c4State.ps c).1 ≠ (Store.RefCount c4State.ps c).2 →
      CoreIpfs.unpinStaged c4State rmOk delOk c = (c4State, some "hasn't only stage-pins")) ∧
    (∀ c rmOk delOk, (CoreIpfs.unpinStaged c4State rmOk delOk c).2 = none →
      (Store.RefCount c4State.ps c).1 = (Store.RefCount c4State.ps c).2 ∧ rmOk c = true ∧
      (CoreIpfs.unpinStaged c4State rmOk delOk c).1.ipfs = c4State.ipfs.erase c ∧
      lookupA (CoreIpfs.unpinStaged c4State rmOk delOk c).1.ps.ds c = none) :=
  C4_gc_candidate_selection c4State [] 0 (by decide)

/-! ### Claim C8: per-tenant uniqueness invariant -/

theorem Wf_persist {s : Store} {r : PinnedCid} (b : Bool) (hwf : Store.Wf s)
    (hu : uniqPins r.pins) : Store.Wf (Store.persist s r b).1 := by
  cases b with
  | false =>
    rw [Store.persist, if_neg (by simp)]
    exact hwf
  | true =>
    rw [Store.persist, if_pos rfl]
    refine ⟨keys_updA_nodup hwf.1, keys_updA_nodup hwf.2.1, ?_, ?_⟩
    · intro kv hkv
      rcases mem_updA hkv with h | h
      · subst h
        rfl
      · exact hwf.2.2.1 kv h
    · intro kv hkv
      rcases mem_updA hkv with h | h
      · subst h
        exact hu
      · exact hwf.2.2.2 kv h

theorem Wf_AddStaged (s : Store) (iid : APIID) (c : Cid) (now : Int) (b : Bool)
    (hwf : Store.Wf s) : Store.Wf (Store.AddStaged s iid c now b).1 := by
  cases hlc : lookupA s.cache c with
  | none =>
    have hres : Store.AddStaged s iid c now b =
        Store.persist s { cid := c, pins := [{ apiid := iid, staged := true, createdAt := now }] } b := by
      simp only [Store.AddStaged, hlc, Option.getD_none, findPinIdx, List.nil_append]
    rw [hres]
    exact Wf_persist b hwf (by simp [uniqPins])
  | some r =>
    have huniq := uniq_of_lookupA hwf hlc
    have hcid := cid_of_lookupA hwf hlc
    cases hidx : findPinIdx iid r.pins with
    | none =>
      have hres : Store.AddStaged s iid c now b =
          Store.persist s { cid := r.cid, pins := r.pins ++ [{ apiid := iid, staged := true, createdAt := now }] } b := by
        simp only [Store.AddStaged, hlc, Option.getD_some, hidx]
      rw [hres]
      refine Wf_persist b hwf (uniqPins_append_new huniq ?_)
      intro p hp
      exact findPinIdx_none_iff.1 hidx p hp
    | some i =>
      cases hst : (r.pins.getD i { apiid := iid, staged := true, createdAt := 0 }).staged with
      | false =>
        have hres : Store.AddStaged s iid c now b = (s, none) := by
          simp only [Store.AddStaged, hlc, Option.getD_some, hidx, hst, if_pos rfl, if_true]
        rw [hres]
        exact hwf
      | true =>
        have hlt := findPinIdx_some_lt hidx
        have huniq2 : uniqPins (r.pins.set i
            { (r.pins.getD i { apiid := iid, staged := true, createdAt := 0 }) with createdAt := now }) :=
          uniqPins_set_same { apiid := iid, staged := true, createdAt := 0 } hlt rfl huniq
        have hres : Store.AddStaged s iid c now b =
            Store.persist
              { s with cache := updA s.cache c { cid := r.cid, pins := r.pins.set i { (r.pins.getD i { apiid := iid, staged := true, createdAt := 0 }) with createdAt := now } } }
              { cid := r.cid, pins := r.pins.set i { (r.pins.getD i { apiid := iid, staged := true, createdAt := 0 }) with createdAt := now } } b := by
          simp only [Store.AddStaged, hlc, Option.getD_some, hidx, hst, Bool.true_eq_false,
            if_false]
        rw [hres]
        refine Wf_persist b ⟨hwf.1, keys_updA_nodup hwf.2.1, ?_, ?_⟩ huniq2
        · intro kv hkv
          rcases mem_updA hkv with h | h
          · subst h
            exact hcid
          · exact hwf.2.2.1 kv h
        · intro kv hkv
          rcases mem_updA hkv with h | h
          · subst h
            exact huniq2
          · exact hwf.2.2.2 kv h

theorem Wf_Add (s : Store) (iid : APIID) (c : Cid) (now : Int) (b : Bool)
    (hwf : Store.Wf s) : Store.Wf (Store.Add s iid c now b).1 := by
  cases hlc : lookupA s.cache c with
  | none =>
    have hres : Store.Add s iid c now b =
        Store.persist s { cid := c, pins := [{ apiid := iid, staged := false, createdAt := now }] } b := by
      simp only [Store.Add, hlc, Option.getD_none, findPinIdx, List.nil_append]
    rw [hres]
    exact Wf_persist b hwf (by simp [uniqPins])
  | some r =>
    have huniq := uniq_of_lookupA hwf hlc
    have hcid := cid_of_lookupA hwf hlc
    cases hidx : findPinIdx iid r.pins with
    | none =>
      have hres : Store.Add s iid c now b =
          Store.persist s { cid := r.cid, pins := r.pins ++ [{ apiid := iid, staged := false, createdAt := now }] } b := by
        simp only [Store.Add, hlc, Option.getD_some, hidx]
      rw [hres]
      refine Wf_persist b hwf (uniqPins_append_new huniq ?_)
      intro p hp
      exact findPinIdx_none_iff.1 hidx p hp
    | some i =>
      have hlt := findPinIdx_some_lt hidx
      have hap := findPinIdx_some_getD { apiid := iid, staged := true, createdAt := 0 } hidx
      have huniq2 : uniqPins (r.pins.set i { apiid := iid, staged := false, createdAt := now }) :=
        uniqPins_set_same { apiid := iid, staged := true, createdAt := 0 } hlt (by rw [hap]) huniq
      have hres : Store.Add s iid c now b =
          Store.persist
            { s with cache := updA s.cache c { cid := r.cid, pins := r.pins.set i { apiid := iid, staged := false, createdAt := now } } }
            { cid := r.cid, pins := r.pins.set i { apiid := iid, staged := false, createdAt := now } } b := by
        simp only [Store.Add, hlc, Option.getD_some, hidx]
      rw [hres]
      refine Wf_persist b ⟨hwf.1, keys_updA_nodup hwf.2.1, ?_, ?_⟩ huniq2
      · intro kv hkv
        rcases mem_updA hkv with h | h
        · subst h
          exact hcid
        · exact hwf.2.2.1 kv h
      · intro kv hkv
        rcases mem_updA hkv with h | h
        · subst h
          exact huniq2
        · exact hwf.2.2.2 kv h

theorem Wf_Remove (s : Store) (iid : APIID) (c : Cid) (hwf : Store.Wf s) :
    Store.Wf (Store.Remove s iid c true).1 := by
  cases hlc : lookupA s.cache c with
  | none =>
    have hres : Store.Remove s iid c true = (s, some "c1 isn't pinned") := by
      simp only [Store.Remove, hlc]
    rw [hres]
    exact hwf
  | some r =>
    have huniq := uniq_of_lookupA hwf hlc
    have hcid := cid_of_lookupA hwf hlc
    cases hidx : findPinIdx iid r.pins with
    | none =>
      have hres : Store.Remove s iid c true = (s, none) := by
        simp only [Store.Remove, hlc, hidx]
      rw [hres]
      exact hwf
    | some i =>
      have hlt : i < r.pins.length := findPinIdx_some_lt hidx
      have hne : r.pins ≠ [] := by
        intro hnil
        rw [hnil] at hlt
        simp at hlt
      have hgl : r.pins.getLast?.getD { apiid := iid, staged := true, createdAt := 0 } =
          r.pins.getLast hne := by
        rw [List.getLast?_eq_getLast r.pins hne]
        rfl
      have hperm := swap_remove_perm r.pins i { apiid := iid, staged := true, createdAt := 0 } hlt hne
      have huniqF : uniqPins ((r.pins.set i (r.pins.getLast hne)).dropLast) :=
        uniqPins_of_perm hperm.symm (uniqPins_eraseIdx i huniq)
      have hres : Store.Remove s iid c true =
          ({ ds := updA s.ds c { cid := r.cid, pins := (r.pins.set i (r.pins.getLast hne)).dropLast },
             cache := updA s.cache c { cid := r.cid, pins := (r.pins.set i (r.pins.getLast hne)).dropLast } },
            none) := by
        simp only [Store.Remove, hlc, hidx, hgl, Store.persist, if_true, hcid, updA_updA_same]
      rw [hres]
      refine ⟨keys_updA_nodup hwf.1, keys_updA_nodup hwf.2.1, ?_, ?_⟩
      · intro kv hkv
        rcases mem_updA hkv with h | h
        · subst h
          exact hcid
        · exact hwf.2.2.1 kv h
      · intro kv hkv
        rcases mem_updA hkv with h | h
        · subst h
          exact huniqF
        · exact hwf.2.2.2 kv h

theorem Wf_RemoveStaged (s : Store) (c : Cid) (b : Bool) (hwf : Store.Wf s) :
    Store.Wf (Store.RemoveStaged s c b).1 := by
  cases hlc : lookupA s.cache c with
  | none =>
    have hres : Store.RemoveStaged s c b = (s, some "c1 isn't pinned") := by
      simp only [Store.RemoveStaged, hlc]
    rw [hres]
    exact hwf
  | some pc1 =>
    have huniq := uniq_of_lookupA hwf hlc
    have hcid := cid_of_lookupA hwf hlc
    by_cases hall : pc1.pins.all (fun p => p.staged) = true
    · cases b with
      | false =>
        have hres : Store.RemoveStaged s c false = (s, some "deleting from datastore") := by
          simp only [Store.RemoveStaged, hlc, if_pos hall, Bool.false_eq_true, if_false]
        rw [hres]
        exact hwf
      | true =>
        have hres : Store.RemoveStaged s c true =
            ({ ds := eraseA s.ds c, cache := updA s.cache c pc1 }, none) := by
          simp only [Store.RemoveStaged, hlc, if_pos hall, if_true]
        rw [hres]
        refine ⟨((eraseA_sublist s.ds c).map Prod.fst).nodup hwf.1,
          keys_updA_nodup hwf.2.1, ?_, ?_⟩
        · intro kv hkv
          rcases mem_updA hkv with h | h
          · subst h
            exact hcid
          · exact hwf.2.2.1 kv h
        · intro kv hkv
          rcases mem_updA hkv with h | h
          · subst h
            exact huniq
          · exact hwf.2.2.2 kv h
    · have hres : Store.RemoveStaged s c b = (s, some "all pins should be stage type") := by
        simp only [Store.RemoveStaged, hlc, if_neg hall]
      rw [hres]
      exact hwf

/-- Ledger states reachable from the empty store by completed operations:
AddStaged, Add and RemoveStaged run with an arbitrary datastore outcome
(their failure paths never corrupt a record); Remove with a successful
persist. -/
inductive ReachableOk : Store → Prop where
  | init : ReachableOk { ds := [], cache := [] }
  | addStaged (s : Store) (iid : APIID) (c : Cid) (now : Int) (b : Bool) :
      ReachableOk s → ReachableOk (Store.AddStaged s iid c now b).1
  | add (s : Store) (iid : APIID) (c : Cid) (now : Int) (b : Bool) :
      ReachableOk s → ReachableOk (Store.Add s iid c now b).1
  | remove (s : Store) (iid : APIID) (c : Cid) :
      ReachableOk s → ReachableOk (Store.Remove s iid c true).1
  | removeStaged (s : Store) (c : Cid) (b : Bool) :
      ReachableOk s → ReachableOk (Store.RemoveStaged s c b).1

theorem Wf_of_ReachableOk {s : Store} (h : ReachableOk s) : Store.Wf s := by
  induction h with
  | init => exact ⟨by simp, by simp, by simp, by simp⟩
  | addStaged s iid c now b _ ih => exact Wf_AddStaged s iid c now b ih
  | add s iid c now b _ ih => exact Wf_Add s iid c now b ih
  | remove s iid c _ ih => exact Wf_Remove s iid c ih
  | removeStaged s c b _ ih => exact Wf_RemoveStaged s c b ih

theorem Add_true_post (s : Store) (iid : APIID) (c : Cid) (now : Int) (hwf : Store.Wf s) :
    ∃ pc, lookupA (Store.Add s iid c now true).1.cache c = some pc ∧
      pc.pins.find? (fun p => p.apiid == iid) =
        some { apiid := iid, staged := false, createdAt := now } ∧
      (pc.pins.map Pin.apiid).count iid = 1 := by
  cases hlc : lookupA s.cache c with
  | none =>
    have hres : Store.Add s iid c now true =
        ({ ds := updA s.ds c { cid := c, pins := [{ apiid := iid, staged := false, createdAt := now }] },
           cache := updA s.cache c { cid := c, pins := [{ apiid := iid, staged := false, createdAt := now }] } },
          none) := by
      simp only [Store.Add, hlc, Option.getD_none, findPinIdx, List.nil_append,
        Store.persist, if_true]
    rw [hres]
    exact ⟨_, lookupA_updA_self _ _ _, by simp, by simp⟩
  | some r =>
    have huniq := uniq_of_lookupA hwf hlc
    have hcid := cid_of_lookupA hwf hlc
    cases hidx : findPinIdx iid r.pins with
    | none =>
      have hres : Store.Add s iid c now true =
          ({ ds := updA s.ds c { cid := r.cid, pins := r.pins ++ [{ apiid := iid, staged := false, createdAt := now }] },
             cache := updA s.cache c { cid := r.cid, pins := r.pins ++ [{ apiid := iid, staged := false, createdAt := now }] } },
            none) := by
        simp only [Store.Add, hlc, Option.getD_some, hidx, Store.persist, if_true, hcid]
      rw [hres]
      refine ⟨_, lookupA_updA_self _ _ _, ?_, ?_⟩
      · rw [List.find?_append, find?_eq_none_of_findPinIdx_none hidx, Option.none_or]
        simp
      · have hnotin : iid ∉ r.pins.map Pin.apiid := by
          intro hmem
          rcases List.mem_map.1 hmem with ⟨p, hp, he⟩
          exact findPinIdx_none_iff.1 hidx p hp he
        rw [List.map_append, List.count_append]
        simp [List.count_eq_zero.2 hnotin]
    | some i =>
      have hlt := findPinIdx_some_lt hidx
      have hap := findPinIdx_some_getD { apiid := iid, staged := true, createdAt := 0 } hidx
      have hres : Store.Add s iid c now true =
          ({ ds := updA s.ds c { cid := r.cid, pins := r.pins.set i { apiid := iid, staged := false, createdAt := now } },
             cache := updA s.cache c { cid := r.cid, pins := r.pins.set i { apiid := iid, staged := false, createdAt := now } } },
            none) := by
        simp only [Store.Add, hlc, Option.getD_some, hidx, Store.persist, if_true, hcid,
          updA_updA_same]
      rw [hres]
      refine ⟨_, lookupA_updA_self _ _ _, ?_, ?_⟩
      · exact find?_set_at_findPinIdx hidx rfl
      · rw [map_apiid_set_same { apiid := iid, staged := true, createdAt := 0 } hlt (by rw [hap])]
        have hmem : iid ∈ r.pins.map Pin.apiid := by
          rw [← hap]
          exact List.mem_map.2 ⟨_, getD_mem r.pins i _ hlt, rfl⟩
        exact List.count_eq_one_of_mem huniq hmem

/-- C8: in every ledger state reachable by completed operations each entry
holds at most one record per APIID; the invariant is preserved by AddStaged,
Add and RemoveStaged under any datastore outcome and by Remove with a
successful persist; repeated Add calls leave exactly one record for the
tenant, durable, with createdAt equal to the last call's time.  The Remove
failure path is excluded — see the counterexample: a failed persist inside
Remove duplicates a record in the cache through the shared pin slice. -/
theorem C8_per_tenant_uniqueness :
    (∀ s, ReachableOk s → ∀ kv ∈ s.cache, uniqPins kv.2.pins) ∧
    (∀ s iid c now b, Store.Wf s → Store.Wf (Store.AddStaged s iid c now b).1) ∧
    (∀ s iid c now b, Store.Wf s → Store.Wf (Store.Add s iid c now b).1) ∧
    (∀ s iid c, Store.Wf s → Store.Wf (Store.Remove s iid c true).1) ∧
    (∀ s c b, Store.Wf s → Store.Wf (Store.RemoveStaged s c b).1) ∧
    (∀ s iid c n1 n2, Store.Wf s →
      ∃ pc, lookupA (Store.Add (Store.Add s iid c n1 true).1 iid c n2 true).1.cache c = some pc ∧
        pc.pins.find? (fun p => p.apiid == iid) =
          some { apiid := iid, staged := false, createdAt := n2 } ∧
        (pc.pins.map Pin.apiid).count iid = 1) :=
  ⟨fun _ hr => (Wf_of_ReachableOk hr).2.2.2,
   fun s iid c now b hwf => Wf_AddStaged s iid c now b hwf,
   fun s iid c now b hwf => Wf_Add s iid c now b hwf,
   fun s iid c hwf => Wf_Remove s iid c hwf,
   fun s c b hwf => Wf_RemoveStaged s c b hwf,
   fun s iid c n1 n2 hwf => Add_true_post (Store.Add s iid c n1 true).1 iid c n2
     (Wf_Add s iid c n1 true hwf)⟩

/-- Witness for C8: the repeated-add conjunct at concrete inputs. -/
theorem C8_per_tenant_uniqueness_witness :
    ∃ pc, lookupA (Store.Add (Store.Add { ds := [], cache := [] } 7 1 3 true).1
        7 1 9 true).1.cache 1 = some pc ∧
      pc.pins.find? (fun p => p.apiid == 7) =
        some { apiid := 7, staged := false, createdAt := 9 } ∧
      (pc.pins.map Pin.apiid).count 7 = 1 :=
  C8_per_tenant_uniqueness.2.2.2.2.2 { ds := [], cache := [] } 7 1 3 9 (by decide)

/-- C8 counterexample: starting from the empty ledger, two successful durable
Adds by tenants 7 and 8 on Cid 1 keep every entry duplicate-free, but a
subsequent Remove by tenant 7 whose datastore Put fails leaves the cache
entry with tenant 8's record duplicated (the swap wrote through the shared
slice, the truncation did not), violating the at-most-one-record-per-tenant
invariant in a reachable state. -/
theorem C8_counterexample_failed_remove_duplicates :
    (∀ kv ∈ (Store.Add (Store.Add { ds := [], cache := [] } 7 1 0 true).1 8 1 0 true).1.cache,
      uniqPins kv.2.pins) ∧
    ¬ (∀ kv ∈ (Store.Remove
        (Store.Add (Store.Add { ds := [], cache := [] } 7 1 0 true).1 8 1 0 true).1
        7 1 false).1.cache, uniqPins kv.2.pins) := by
  decide
